import Mathlib

/-!
Shallow embedding of the `unused` command line tool: the token grouping in
`crates/token_search/src/token.rs` and the configuration building and
fallback logic in `src/bin/unused.rs`, together with proofs of functional
properties of grouping, canonicalization, configuration resolution and
failure handling.
-/

namespace Unused

/-- Modelled from the spec: the language enumeration provided by the external
crate `read_ctags` (its source is not part of this embedding). The concrete
variants are irrelevant to the properties below; three representatives
suffice, only decidable equality is used. -/
inductive Language : Type
  | ruby : Language
  | elixir : Language
  | rustLang : Language
  deriving DecidableEq, Repr

/-- Modelled from the spec: the tag-kind enumeration from crate `read_ctags`
(opaque for our purposes). -/
inductive TokenKind : Type
  | cls : TokenKind
  | func : TokenKind
  deriving DecidableEq, Repr

/-- A raw tag entry, mirroring `read_ctags::CtagItem`: a name, a file path,
an optional language, a kind, and auxiliary tag fields. -/
structure CtagItem where
  name : String
  file_path : String
  language : Option Language
  kind : TokenKind
  tags : List (String × String)
  deriving DecidableEq, Repr

/-- Mirrors `token_search::Token`: a canonical spelling together with the
ordered sequence of tag entries grouped under it. -/
structure Token where
  token : String
  definitions : List CtagItem
  deriving DecidableEq, Repr

/-- Mirrors `Token::strip_prepended_punctuation`: drop the longest leading
run of `#` and `.` characters from the raw name. -/
def Token.strip_prepended_punctuation (input : String) : String :=
  String.mk (input.data.dropWhile (fun c => c == '#' || c == '.'))

/-- C4: `strip_prepended_punctuation` is total — in particular it is defined
on the empty string, which it fixes — and idempotent: canonicalizing twice
equals canonicalizing once, for every string. -/
theorem strip_prepended_punctuation_total_idem :
    Token.strip_prepended_punctuation "" = "" ∧
    ∀ x : String,
      Token.strip_prepended_punctuation (Token.strip_prepended_punctuation x) =
        Token.strip_prepended_punctuation x := by
  constructor
  · rfl
  · intro x
    simp [Token.strip_prepended_punctuation, List.dropWhile_idempotent]

/-- The grouping key used by `build_tokens_from_outcome`: the canonical
spelling of a tag entry's raw name. -/
def keyOf (ct : CtagItem) : String :=
  Token.strip_prepended_punctuation ct.name

/-- Executable lexicographic comparison of character lists. Rust compares
`String` keys by their UTF-8 bytes, which orders exactly like the code-point
lexicographic order embodied here. -/
def charListLT : List Char → List Char → Bool
  | [], [] => false
  | [], _ :: _ => true
  | _ :: _, [] => false
  | a :: as, b :: bs =>
    if a < b then true
    else if b < a then false
    else charListLT as bs

theorem charListLT_iff : ∀ l₁ l₂ : List Char, charListLT l₁ l₂ = true ↔ l₁ < l₂ := by
  intro l₁
  induction l₁ with
  | nil =>
    intro l₂
    cases l₂ with
    | nil =>
      simp only [charListLT, Bool.false_eq_true, false_iff]
      intro h
      cases h
    | cons b bs =>
      constructor
      · intro _
        exact List.Lex.nil
      · intro _
        rfl
  | cons a as ih =>
    intro l₂
    cases l₂ with
    | nil =>
      simp only [charListLT, Bool.false_eq_true, false_iff]
      intro h
      cases h
    | cons b bs =>
      rw [charListLT]
      rcases lt_trichotomy a b with hab | hab | hab
      · rw [if_pos hab]
        constructor
        · intro _
          exact List.Lex.rel hab
        · intro _
          rfl
      · subst hab
        rw [if_neg (lt_irrefl a), if_neg (lt_irrefl a), ih bs]
        constructor
        · intro h
          exact List.Lex.cons h
        · intro h
          cases h with
          | cons h' => exact h'
          | rel h' => exact absurd h' (lt_irrefl a)
      · rw [if_neg (asymm hab), if_pos hab]
        simp only [Bool.false_eq_true, false_iff]
        intro h
        cases h with
        | cons h' => exact lt_irrefl _ hab
        | rel h' => exact asymm hab h'

theorem charListLT_iff_strings (a b : String) :
    charListLT a.data b.data = true ↔ a < b := by
  rw [charListLT_iff]
  exact (String.lt_iff_toList_lt).symm

/-- Comparison of tag entries by canonical spelling; `sorted_by_key` in the
Rust source is a stable sort along exactly this relation. -/
def keyLE (a b : CtagItem) : Prop :=
  keyOf a ≤ keyOf b

instance : DecidableRel keyLE := fun a b =>
  decidable_of_iff (charListLT (keyOf b).data (keyOf a).data = false)
    (by rw [Bool.eq_false_iff, Ne, charListLT_iff_strings]; exact not_lt)

instance : IsTotal CtagItem keyLE :=
  ⟨fun a b => le_total (keyOf a) (keyOf b)⟩

instance : IsTrans CtagItem keyLE :=
  ⟨fun _ _ _ hab hbc => le_trans hab hbc⟩

/-- The subsequence of entries whose canonical spelling is `k`, in order. -/
def keyRun (k : String) (l : List CtagItem) : List CtagItem :=
  l.filter (fun e => keyOf e = k)

theorem keyRun_nil (k : String) : keyRun k [] = [] := rfl

theorem keyRun_cons (k : String) (x : CtagItem) (l : List CtagItem) :
    keyRun k (x :: l) = if keyOf x = k then x :: keyRun k l else keyRun k l := by
  simp only [keyRun, List.filter_cons]
  by_cases h : keyOf x = k <;> simp [h]

theorem keyRun_orderedInsert (k : String) (x : CtagItem) (l : List CtagItem) :
    keyRun k (List.orderedInsert keyLE x l) =
      if keyOf x = k then x :: keyRun k l else keyRun k l := by
  induction l with
  | nil => rw [List.orderedInsert, keyRun_cons, keyRun_nil]
  | cons b l ih =>
    by_cases hxb : keyLE x b
    · rw [List.orderedInsert, if_pos hxb, keyRun_cons]
    · rw [List.orderedInsert, if_neg hxb, keyRun_cons, ih, keyRun_cons]
      by_cases h1 : keyOf b = k <;> by_cases h2 : keyOf x = k <;>
        simp only [h1, h2, if_pos, if_neg, if_true, if_false]
      exact absurd (show keyLE x b from le_of_eq (h2.trans h1.symm)) hxb

theorem keyRun_insertionSort (k : String) (l : List CtagItem) :
    keyRun k (List.insertionSort keyLE l) = keyRun k l := by
  induction l with
  | nil => rfl
  | cons x l ih => rw [List.insertionSort, keyRun_orderedInsert, ih, keyRun_cons]

/-- Mirrors the `group_by` step of `build_tokens_from_outcome`: partition a
list into maximal runs of consecutive entries sharing one canonical
spelling, building one `Token` per run. -/
def groupRuns : List CtagItem → List Token
  | [] => []
  | x :: xs =>
    match groupRuns xs with
    | [] => [⟨keyOf x, [x]⟩]
    | t :: ts =>
      if keyOf x = t.token then ⟨t.token, x :: t.definitions⟩ :: ts
      else ⟨keyOf x, [x]⟩ :: t :: ts

theorem groupRuns_cons (x : CtagItem) (xs : List CtagItem) :
    groupRuns (x :: xs) =
      match groupRuns xs with
      | [] => [⟨keyOf x, [x]⟩]
      | t :: ts =>
        if keyOf x = t.token then ⟨t.token, x :: t.definitions⟩ :: ts
        else ⟨keyOf x, [x]⟩ :: t :: ts := rfl

theorem groupRuns_ne_nil (x : CtagItem) (xs : List CtagItem) :
    groupRuns (x :: xs) ≠ [] := by
  rw [groupRuns_cons]
  cases hg : groupRuns xs with
  | nil => simp
  | cons t ts =>
    by_cases h : keyOf x = t.token <;> simp [h]

theorem groupRuns_cons_token (x : CtagItem) (xs : List CtagItem) (t : Token)
    (ts : List Token) (h : groupRuns (x :: xs) = t :: ts) : t.token = keyOf x := by
  rw [groupRuns_cons] at h
  cases hg : groupRuns xs with
  | nil =>
    rw [hg] at h
    simp only [List.cons.injEq] at h
    rw [← h.1]
  | cons u us =>
    rw [hg] at h
    dsimp only at h
    by_cases hk : keyOf x = u.token
    · rw [if_pos hk] at h
      simp only [List.cons.injEq] at h
      rw [← h.1, hk]
    · rw [if_neg hk] at h
      simp only [List.cons.injEq] at h
      rw [← h.1]

theorem groupRuns_spec (l : List CtagItem) (hs : List.Sorted keyLE l) :
    ((groupRuns l).map Token.token).Sorted (· < ·)
    ∧ (∀ k : String, k ∈ (groupRuns l).map Token.token ↔ ∃ e ∈ l, keyOf e = k)
    ∧ (∀ t ∈ groupRuns l, t.definitions = keyRun t.token l) := by
  induction l with
  | nil =>
    refine ⟨by simp [groupRuns], by simp [groupRuns], by simp [groupRuns]⟩
  | cons x xs ih =>
    have hx : ∀ b ∈ xs, keyLE x b := (List.sorted_cons.mp hs).1
    have hs' : List.Sorted keyLE xs := (List.sorted_cons.mp hs).2
    obtain ⟨ihSort, ihMem, ihRun⟩ := ih hs'
    rw [groupRuns_cons]
    cases hg : groupRuns xs with
    | nil =>
      have hxs : xs = [] := by
        cases xs with
        | nil => rfl
        | cons y ys => exact absurd hg (groupRuns_ne_nil y ys)
      subst hxs
      dsimp only
      refine ⟨by simp, ?_, ?_⟩
      · intro k
        simp [eq_comm]
      · intro t ht
        simp only [List.mem_singleton] at ht
        subst ht
        simp [keyRun_cons, keyRun_nil]
    | cons t ts =>
      rw [hg] at ihSort ihMem ihRun
      dsimp only
      obtain ⟨y, ys, rfl⟩ : ∃ y ys, xs = y :: ys := by
        cases xs with
        | nil => exact absurd hg (by simp [groupRuns])
        | cons y ys => exact ⟨y, ys, rfl⟩
      have hty : t.token = keyOf y := groupRuns_cons_token y ys t ts hg
      have hxy : keyOf x ≤ keyOf y := hx y (List.mem_cons_self y ys)
      have ihSort' : (t.token :: ts.map Token.token).Sorted (· < ·) := by
        rw [List.map_cons] at ihSort
        exact ihSort
      have hyle : ∀ e ∈ y :: ys, keyOf y ≤ keyOf e := by
        intro e he
        rcases List.mem_cons.mp he with rfl | he'
        · exact le_refl _
        · exact (List.sorted_cons.mp hs').1 e he'
      have hkeyx : ∀ e ∈ y :: ys, keyOf e = keyOf x → keyOf x = t.token := by
        intro e he heq
        have h2 : keyOf y ≤ keyOf x := heq ▸ hyle e he
        exact (le_antisymm hxy h2).trans hty.symm
      by_cases hxe : keyOf x = t.token
      · rw [if_pos hxe]
        refine ⟨by rw [List.map_cons]; exact ihSort', ?_, ?_⟩
        · intro k
          simp only [List.map_cons, List.mem_cons] at ihMem ⊢
          constructor
          · intro hk
            obtain ⟨e, he, hek⟩ := (ihMem k).mp hk
            exact ⟨e, Or.inr he, hek⟩
          · rintro ⟨e, rfl | he', hek⟩
            · exact Or.inl (hek.symm.trans hxe)
            · exact (ihMem k).mpr ⟨e, he', hek⟩
        · intro u hu
          rcases List.mem_cons.mp hu with rfl | hu'
          · show x :: t.definitions = keyRun t.token (x :: (y :: ys))
            rw [keyRun_cons, if_pos hxe]
            congr 1
            exact ihRun t (List.mem_cons_self t ts)
          · have h1 : t.token < u.token :=
              List.rel_of_sorted_cons ihSort' u.token
                (List.mem_map_of_mem Token.token hu')
            have hne : keyOf x ≠ u.token := fun hcontra =>
              (ne_of_lt h1) (hxe.symm.trans hcontra)
            rw [keyRun_cons, if_neg hne]
            exact ihRun u (List.mem_cons_of_mem t hu')
      · rw [if_neg hxe]
        have hF : ∀ e ∈ y :: ys, keyOf e ≠ keyOf x := by
          intro e he heq
          exact hxe (hkeyx e he heq)
        have hxt : keyOf x ≤ t.token := by
          rw [hty]
          exact hxy
        have hlt : keyOf x < t.token := lt_of_le_of_ne hxt hxe
        refine ⟨?_, ?_, ?_⟩
        · simp only [List.map_cons]
          refine List.sorted_cons.mpr ⟨?_, ihSort'⟩
          intro b hb
          rcases List.mem_cons.mp hb with rfl | hb'
          · exact hlt
          · exact lt_trans hlt (List.rel_of_sorted_cons ihSort' b hb')
        · intro k
          simp only [List.map_cons, List.mem_cons] at ihMem ⊢
          constructor
          · intro hk
            rcases hk with rfl | hk'
            · exact ⟨x, Or.inl rfl, rfl⟩
            · obtain ⟨e, he, hek⟩ := (ihMem k).mp hk'
              exact ⟨e, Or.inr he, hek⟩
          · rintro ⟨e, rfl | he', hek⟩
            · exact Or.inl hek.symm
            · exact Or.inr ((ihMem k).mpr ⟨e, he', hek⟩)
        · intro u hu
          rcases List.mem_cons.mp hu with rfl | hu'
          · show [x] = keyRun (keyOf x) (x :: (y :: ys))
            rw [keyRun_cons, if_pos rfl]
            congr 1
            symm
            simp only [keyRun, List.filter_eq_nil_iff, decide_eq_true_eq]
            exact hF
          · have hne : keyOf x ≠ u.token := by
              intro hcontra
              have hmem : u.token ∈ (t :: ts).map Token.token :=
                List.mem_map_of_mem Token.token hu'
              obtain ⟨e, he, hek⟩ := (ihMem u.token).mp hmem
              exact hF e he (hek.trans hcontra.symm)
            rw [keyRun_cons, if_neg hne]
            exact ihRun u hu'

/-- Mirrors `Token::build_tokens_from_outcome`: stable-sort the entries by
canonical spelling (Rust's `sorted_by_key`), then group consecutive runs of
equal spelling into `Token`s (Rust's `group_by`). -/
def Token.build_tokens_from_outcome (outcome : List CtagItem) : List Token :=
  groupRuns (List.insertionSort keyLE outcome)

theorem build_tokens_char (input : List CtagItem) :
    ((Token.build_tokens_from_outcome input).map Token.token).Sorted (· < ·)
    ∧ (∀ k : String,
        k ∈ (Token.build_tokens_from_outcome input).map Token.token ↔
          ∃ e ∈ input, keyOf e = k)
    ∧ (∀ t ∈ Token.build_tokens_from_outcome input,
        t.definitions = keyRun t.token input) := by
  obtain ⟨h1, h2, h3⟩ :=
    groupRuns_spec (List.insertionSort keyLE input)
      (List.sorted_insertionSort keyLE input)
  refine ⟨h1, ?_, ?_⟩
  · intro k
    rw [Token.build_tokens_from_outcome, h2 k]
    constructor
    · rintro ⟨e, he, hek⟩
      exact ⟨e, (List.mem_insertionSort keyLE).mp he, hek⟩
    · rintro ⟨e, he, hek⟩
      exact ⟨e, (List.mem_insertionSort keyLE).mpr he, hek⟩
  · intro t ht
    rw [Token.build_tokens_from_outcome] at ht
    rw [h3 t ht, keyRun_insertionSort]

/-- The instance-scoped entry of the specification's two-entry example: raw
name `#name` defined in `b.rb`. -/
def exSpecEntry : CtagItem :=
  ⟨"#name", "b.rb", some Language.ruby, TokenKind.cls, []⟩

/-- The plain entry of the specification's two-entry example: raw name
`name` defined in `a.rb`. -/
def exMainEntry : CtagItem :=
  ⟨"name", "a.rb", some Language.ruby, TokenKind.cls, []⟩

/-- An entry with a canonical spelling different from the example pair. -/
def exOtherEntry : CtagItem :=
  ⟨"other", "c.rb", some Language.ruby, TokenKind.func, []⟩

theorem tokens_ext (F : String → List CtagItem) :
    ∀ l₁ l₂ : List Token, l₁.map Token.token = l₂.map Token.token →
      (∀ t ∈ l₁, t.definitions = F t.token) →
      (∀ t ∈ l₂, t.definitions = F t.token) → l₁ = l₂ := by
  intro l₁
  induction l₁ with
  | nil =>
    intro l₂ h _ _
    have : l₂.map Token.token = [] := h.symm
    simpa using (List.map_eq_nil_iff.mp this).symm
  | cons a l ih =>
    intro l₂ h h1 h2
    cases l₂ with
    | nil => exact absurd h (by simp)
    | cons b l₂' =>
      simp only [List.map_cons, List.cons.injEq] at h
      obtain ⟨hab, htail⟩ := h
      have hda : a.definitions = F a.token := h1 a (List.mem_cons_self a l)
      have hdb : b.definitions = F b.token := h2 b (List.mem_cons_self b l₂')
      have hab2 : a = b := by
        cases a with
        | mk at_ ad =>
          cases b with
          | mk bt bd =>
            dsimp at hab hda hdb
            subst hab
            rw [hda, hdb]
      have hrest : l = l₂' :=
        ih l₂' htail (fun t ht => h1 t (List.mem_cons_of_mem a ht))
          (fun t ht => h2 t (List.mem_cons_of_mem b ht))
      rw [hab2, hrest]

/-- C3: grouping is order-independent up to ties. For every input the token
spellings are pairwise distinct and are exactly the canonical spellings
occurring in the input; each token's definitions are the input entries of
its spelling in their original relative order; two inputs whose per-spelling
subsequences agree group identically; and the specification's two-entry
example yields a single token spelled `name` with both definitions, in
either input order. -/
theorem build_tokens_order_independent :
    (∀ input : List CtagItem,
      ((Token.build_tokens_from_outcome input).map Token.token).Nodup
      ∧ (∀ k : String,
          k ∈ (Token.build_tokens_from_outcome input).map Token.token ↔
            ∃ e ∈ input, keyOf e = k)
      ∧ (∀ t ∈ Token.build_tokens_from_outcome input,
          t.definitions = input.filter (fun e => keyOf e = t.token)))
    ∧ (∀ input₁ input₂ : List CtagItem,
        (∀ k : String, input₁.filter (fun e => keyOf e = k) =
            input₂.filter (fun e => keyOf e = k)) →
        Token.build_tokens_from_outcome input₁ =
          Token.build_tokens_from_outcome input₂)
    ∧ Token.build_tokens_from_outcome [exSpecEntry, exMainEntry] =
        [⟨"name", [exSpecEntry, exMainEntry]⟩]
    ∧ Token.build_tokens_from_outcome [exMainEntry, exSpecEntry] =
        [⟨"name", [exMainEntry, exSpecEntry]⟩] := by
  haveI : IsIrrefl String (· < ·) := ⟨lt_irrefl⟩
  haveI : IsAntisymm String (· < ·) := ⟨fun a b h1 h2 => absurd h2 (asymm h1)⟩
  refine ⟨?_, ?_, by decide, by decide⟩
  · intro input
    obtain ⟨hsort, hmem, hrun⟩ := build_tokens_char input
    exact ⟨hsort.nodup, hmem, hrun⟩
  · intro input₁ input₂ hF
    obtain ⟨s1, m1, r1⟩ := build_tokens_char input₁
    obtain ⟨s2, m2, r2⟩ := build_tokens_char input₂
    have hmemiff : ∀ l : List CtagItem, ∀ k : String,
        (∃ e ∈ l, keyOf e = k) ↔ ∃ e, e ∈ l.filter (fun e => keyOf e = k) := by
      intro l k
      constructor
      · rintro ⟨e, he, hek⟩
        exact ⟨e, List.mem_filter.mpr ⟨he, by simp [hek]⟩⟩
      · rintro ⟨e, he⟩
        obtain ⟨h1, h2⟩ := List.mem_filter.mp he
        exact ⟨e, h1, by simpa using h2⟩
    have hmapeq : (Token.build_tokens_from_outcome input₁).map Token.token =
        (Token.build_tokens_from_outcome input₂).map Token.token := by
      refine List.eq_of_perm_of_sorted ?_ s1 s2
      refine (List.perm_ext_iff_of_nodup s1.nodup s2.nodup).mpr ?_
      intro k
      rw [m1 k, m2 k, hmemiff input₁ k, hmemiff input₂ k, hF k]
    refine tokens_ext (fun k => input₁.filter (fun e => keyOf e = k)) _ _ hmapeq ?_ ?_
    · intro t ht
      exact r1 t ht
    · intro t ht
      show t.definitions = input₁.filter (fun e => keyOf e = t.token)
      rw [hF t.token]
      exact r2 t ht

/-- C8: every token produced by grouping satisfies both invariants — its
definitions sequence is non-empty, and every definition's raw name
canonicalizes to the token's spelling. -/
theorem build_tokens_invariants (input : List CtagItem) :
    ∀ t ∈ Token.build_tokens_from_outcome input,
      t.definitions ≠ [] ∧
      ∀ d ∈ t.definitions, Token.strip_prepended_punctuation d.name = t.token := by
  intro t ht
  obtain ⟨hsort, hmem, hrun⟩ := build_tokens_char input
  constructor
  · have htok : t.token ∈ (Token.build_tokens_from_outcome input).map Token.token :=
      List.mem_map_of_mem Token.token ht
    obtain ⟨e, he, hek⟩ := (hmem t.token).mp htok
    have hin : e ∈ keyRun t.token input :=
      List.mem_filter.mpr ⟨he, by simp [hek]⟩
    rw [hrun t ht]
    intro hnil
    rw [hnil] at hin
    exact absurd hin (List.not_mem_nil e)
  · intro d hd
    rw [hrun t ht] at hd
    have h2 := (List.mem_filter.mp hd).2
    simpa using h2

/-- Closed instantiation of `build_tokens_invariants` at the example input. -/
theorem build_tokens_invariants_witness :
    (⟨"name", [exSpecEntry, exMainEntry]⟩ : Token).definitions ≠ [] ∧
    Token.strip_prepended_punctuation exSpecEntry.name = "name" := by
  have h := build_tokens_invariants [exSpecEntry, exMainEntry]
    ⟨"name", [exSpecEntry, exMainEntry]⟩ (by decide)
  exact ⟨h.1, h.2 exSpecEntry (by decide)⟩

/-- Closed instantiation of the order-independence part of
`build_tokens_order_independent`: swapping two entries of distinct
spellings does not change the grouping result. -/
theorem build_tokens_order_independent_witness :
    Token.build_tokens_from_outcome [exMainEntry, exOtherEntry] =
      Token.build_tokens_from_outcome [exOtherEntry, exMainEntry] := by
  refine (build_tokens_order_independent).2.1 [exMainEntry, exOtherEntry]
    [exOtherEntry, exMainEntry] ?_
  intro k
  have hm : keyOf exMainEntry = "name" := by decide
  have ho : keyOf exOtherEntry = "other" := by decide
  simp only [List.filter_cons, List.filter_nil, hm, ho]
  by_cases h1 : ("name" : String) = k
  · by_cases h2 : ("other" : String) = k
    · exact absurd (h1.trans h2.symm) (by decide)
    · simp [h1, h2]
  · by_cases h2 : ("other" : String) = k
    · simp [h1, h2]
    · simp [h1, h2]

/-- Mirrors `Token::defined_paths`: the Rust code collects the definitions'
file paths into a `HashSet`; the set is embedded as a duplicate-free list
of those paths. -/
def Token.defined_paths (t : Token) : List String :=
  (t.definitions.map (fun v => v.file_path)).dedup

/-- Mirrors `Token::first_path`: `self.defined_paths().iter().nth(0).unwrap()`.
Hash-set iteration order is unspecified, so the enumeration `it` of the path
set is passed explicitly; the result is the head of that enumeration, with
`none` modelling the `unwrap` panic on an empty set. -/
def Token.first_path (_t : Token) (it : List String) : Option String :=
  it.head?

/-- C9: `defined_paths` holds exactly the file paths of the token's
definitions — membership is equivalent to some definition having that
path — and no path occurs twice. -/
theorem defined_paths_spec (t : Token) :
    (∀ p : String, p ∈ t.defined_paths ↔ ∃ d ∈ t.definitions, d.file_path = p)
    ∧ t.defined_paths.Nodup := by
  constructor
  · intro p
    rw [Token.defined_paths, List.mem_dedup, List.mem_map]
  · exact List.nodup_dedup _

/-- Closed instantiation of `defined_paths_spec` at the example entry. -/
theorem defined_paths_spec_witness :
    ("a.rb" ∈ (⟨"name", [exMainEntry]⟩ : Token).defined_paths) ∧
    (⟨"name", [exMainEntry]⟩ : Token).defined_paths.Nodup := by
  have h := defined_paths_spec ⟨"name", [exMainEntry]⟩
  exact ⟨(h.1 "a.rb").mpr ⟨exMainEntry, List.mem_cons_self _ _, rfl⟩, h.2⟩

/-- C10: under the non-emptiness invariant `first_path` is safe — for every
valid hash-iteration order of `defined_paths` it yields a member of
`defined_paths` — while for a token with no definitions every iteration is
empty and the `unwrap` panics (modelled as `none`). -/
theorem first_path_safe (t : Token) (it : List String)
    (hit : it.Perm t.defined_paths) :
    (t.definitions ≠ [] →
      ∃ p, t.first_path it = some p ∧ p ∈ t.defined_paths)
    ∧ (t.definitions = [] → t.first_path it = none) := by
  constructor
  · intro hne
    have hdp : t.defined_paths ≠ [] := by
      rw [Token.defined_paths]
      simp [List.dedup_eq_nil, hne]
    have hitne : it ≠ [] := by
      intro h
      subst h
      exact hdp hit.nil_eq.symm
    cases it with
    | nil => exact absurd rfl hitne
    | cons p ps =>
      exact ⟨p, rfl, hit.subset (List.mem_cons_self p ps)⟩
  · intro hnil
    have hdp : t.defined_paths = [] := by
      rw [Token.defined_paths, hnil]
      rfl
    have : it = [] := by
      rw [hdp] at hit
      exact hit.eq_nil
    rw [Token.first_path, this]
    rfl

/-- Closed instantiation of `first_path_safe` covering the empty-token panic
branch. -/
theorem first_path_safe_witness :
    Token.first_path ⟨"name", []⟩ [] = none ∧
    (⟨"name", [exMainEntry]⟩ : Token).definitions ≠ [] := by
  refine ⟨(first_path_safe ⟨"name", []⟩ [] (List.Perm.refl _)).2 rfl, by decide⟩

/-- A token defined at two distinct paths, exhibiting the iteration-order
dependence of `first_path`. -/
def twoPathToken : Token :=
  ⟨"name", [⟨"name", "a.rb", some Language.ruby, TokenKind.cls, []⟩,
            ⟨"name", "b.rb", some Language.ruby, TokenKind.cls, []⟩]⟩

/-- C2: `first_path` is not determined by the token alone — two iteration
orders, both valid enumerations of `twoPathToken`'s path set (as a Rust
`HashSet` iteration may produce either, depending on its random hash
state), give different results. -/
theorem first_path_iteration_dependent :
    (["a.rb", "b.rb"] : List String).Perm twoPathToken.defined_paths
    ∧ (["b.rb", "a.rb"] : List String).Perm twoPathToken.defined_paths
    ∧ twoPathToken.first_path ["a.rb", "b.rb"] ≠
        twoPathToken.first_path ["b.rb", "a.rb"] := by
  refine ⟨?_, ?_, by decide⟩
  · show (["a.rb", "b.rb"] : List String).Perm ["a.rb", "b.rb"]
    exact List.Perm.refl _
  · show (["b.rb", "a.rb"] : List String).Perm ["a.rb", "b.rb"]
    exact List.Perm.swap "a.rb" "b.rb" []

/-- Mirrors `token_analysis::UsageLikelihoodStatus` (declared outside
`src/`; variants per the spec and their uses in `unused.rs`). -/
inductive UsageLikelihoodStatus : Type
  | high : UsageLikelihoodStatus
  | medium : UsageLikelihoodStatus
  | low : UsageLikelihoodStatus
  deriving DecidableEq, Repr

/-- Modelled from the spec: the closed sort-field enumeration `OrderField`
from crate `token_analysis` (not under `src/`). Its exact variants are
irrelevant to the claims — it is only stored verbatim — so two
representatives suffice. -/
inductive OrderField : Type
  | byToken : OrderField
  | byFile : OrderField
  deriving DecidableEq, Repr

/-- Mirrors `token_search::LanguageRestriction` (declared outside `src/`;
variants per the spec): no restriction, only the given languages, or all
but the given languages. -/
inductive LanguageRestriction : Type
  | all : LanguageRestriction
  | only : Finset Language → LanguageRestriction
  | except : Finset Language → LanguageRestriction
  deriving DecidableEq

/-- The two fields of `token_search::TokenSearchConfig` that
`build_token_search_config` assigns. -/
structure TokenSearchConfig where
  display_progress : Bool
  language_restriction : LanguageRestriction
  deriving DecidableEq

/-- Modelled from the spec: `TokenSearchConfig::default()` (crate
`token_search`, not under `src/`) — progress shown, no language
restriction. -/
def TokenSearchConfig.default : TokenSearchConfig :=
  ⟨true, LanguageRestriction.all⟩

/-- The fields of `token_analysis::AnalysisFilter` used by `unused.rs`,
per the spec's data model. -/
structure AnalysisFilter where
  usage_likelihood_filter : List UsageLikelihoodStatus
  sort_order : OrderField
  sort_descending : Bool
  deriving DecidableEq

/-- Modelled from the spec: `AnalysisFilter::default()` (crate
`token_analysis`, not under `src/`) — likelihood filter `[High]`, default
sort field, ascending. -/
def AnalysisFilter.default : AnalysisFilter :=
  ⟨[UsageLikelihoodStatus.high], OrderField.byToken, false⟩

/-- Modelled from the spec: `AnalysisFilter::set_order_field` (crate
`token_analysis`, not under `src/`) stores the sort field verbatim and
touches nothing else. -/
def AnalysisFilter.set_order_field (af : AnalysisFilter) (f : OrderField) :
    AnalysisFilter :=
  { af with sort_order := f }

/-- Modelled from the spec: `AnalysisFilter::set_order_descending` (crate
`token_analysis`, not under `src/`) switches the direction to descending
and touches nothing else. -/
def AnalysisFilter.set_order_descending (af : AnalysisFilter) : AnalysisFilter :=
  { af with sort_descending := true }

/-- Mirrors the `Flags` struct parsed from the command line in
`unused.rs`. -/
structure Flags where
  no_color : Bool
  json : Bool
  no_progress : Bool
  all_likelihoods : Bool
  likelihoods : List UsageLikelihoodStatus
  sort_order : OrderField
  reverse : Bool
  only_filetypes : List Language
  except_filetypes : List Language
  deriving DecidableEq

/-- Mirrors `to_hash_set` in `unused.rs`: collect a slice into a set. -/
def to_hash_set (input : List Language) : Finset Language :=
  input.toFinset

/-- Mirrors `build_token_search_config` in `unused.rs`: start from the
default, clear `display_progress` on `--no-progress`, set `Only` when the
"only" list is non-empty, then set `Except` when the "except" list is
non-empty. -/
def build_token_search_config (cmd : Flags) : TokenSearchConfig :=
  let sc₀ := TokenSearchConfig.default
  let sc₁ := if cmd.no_progress then { sc₀ with display_progress := false } else sc₀
  let sc₂ :=
    if cmd.only_filetypes ≠ [] then
      { sc₁ with language_restriction :=
          LanguageRestriction.only (to_hash_set cmd.only_filetypes) }
    else sc₁
  let sc₃ :=
    if cmd.except_filetypes ≠ [] then
      { sc₂ with language_restriction :=
          LanguageRestriction.except (to_hash_set cmd.except_filetypes) }
    else sc₂
  sc₃

/-- Mirrors `build_analysis_filter` in `unused.rs`: start from the default,
replace the likelihood filter by the explicit list when non-empty, force
all three likelihoods on `--all-likelihoods`, then store the sort field and
optionally the descending direction. -/
def build_analysis_filter (cmd : Flags) : AnalysisFilter :=
  let af₀ := AnalysisFilter.default
  let af₁ :=
    if cmd.likelihoods ≠ [] then
      { af₀ with usage_likelihood_filter := cmd.likelihoods }
    else af₀
  let af₂ :=
    if cmd.all_likelihoods then
      { af₁ with usage_likelihood_filter :=
          [UsageLikelihoodStatus.high, UsageLikelihoodStatus.medium,
            UsageLikelihoodStatus.low] }
    else af₁
  let af₃ := af₂.set_order_field cmd.sort_order
  let af₄ := if cmd.reverse then af₃.set_order_descending else af₃
  af₄

/-- A flag record supplying both a non-empty "only" list and a non-empty
"except" list. -/
def cmdBothFiletypes : Flags :=
  ⟨false, false, false, false, [UsageLikelihoodStatus.high], OrderField.byToken,
    false, [Language.ruby], [Language.elixir]⟩

/-- C1 (counterexample): when both language lists are non-empty the built
configuration restricts by `Except` of the "except" languages, not by
`Only` — the `except` branch runs after the `only` branch and overwrites
it. -/
theorem both_filetypes_yields_except :
    cmdBothFiletypes.only_filetypes ≠ [] ∧
    cmdBothFiletypes.except_filetypes ≠ [] ∧
    (build_token_search_config cmdBothFiletypes).language_restriction =
      LanguageRestriction.except (to_hash_set [Language.elixir]) ∧
    (build_token_search_config cmdBothFiletypes).language_restriction ≠
      LanguageRestriction.only (to_hash_set [Language.ruby]) := by
  refine ⟨by simp [cmdBothFiletypes], by simp [cmdBothFiletypes], rfl, ?_⟩
  intro h
  exact LanguageRestriction.noConfusion h

/-- C1 (amended): whenever both language lists are non-empty, the built
configuration has `language_restriction = Except` of the "except"
languages. -/
theorem both_filetypes_amended (cmd : Flags)
    (_h1 : cmd.only_filetypes ≠ []) (h2 : cmd.except_filetypes ≠ []) :
    (build_token_search_config cmd).language_restriction =
      LanguageRestriction.except (to_hash_set cmd.except_filetypes) := by
  simp [build_token_search_config, h2]

/-- Closed instantiation of `both_filetypes_amended`. -/
theorem both_filetypes_amended_witness :
    (build_token_search_config cmdBothFiletypes).language_restriction =
      LanguageRestriction.except (to_hash_set cmdBothFiletypes.except_filetypes) :=
  both_filetypes_amended cmdBothFiletypes (by simp [cmdBothFiletypes])
    (by simp [cmdBothFiletypes])

/-- C5: the "all likelihoods" override forces the likelihood filter to
High, Medium, Low regardless of the explicit likelihood list and the sort
settings. -/
theorem all_likelihoods_override (cmd : Flags)
    (h : cmd.all_likelihoods = true) :
    (build_analysis_filter cmd).usage_likelihood_filter =
      [UsageLikelihoodStatus.high, UsageLikelihoodStatus.medium,
        UsageLikelihoodStatus.low] := by
  by_cases hrev : cmd.reverse <;>
    simp [build_analysis_filter, h, hrev, AnalysisFilter.set_order_field,
      AnalysisFilter.set_order_descending]

/-- A flag record combining the override with an explicit `low` filter. -/
def cmdAllWithLow : Flags :=
  ⟨false, false, false, true, [UsageLikelihoodStatus.low], OrderField.byToken,
    false, [], []⟩

/-- Closed instantiation of `all_likelihoods_override`: combined with an
explicit `low` filter the effective set is still High, Medium, Low. -/
theorem all_likelihoods_override_witness :
    (build_analysis_filter cmdAllWithLow).usage_likelihood_filter =
      [UsageLikelihoodStatus.high, UsageLikelihoodStatus.medium,
        UsageLikelihoodStatus.low] :=
  all_likelihoods_override cmdAllWithLow rfl

/-- Mirrors `Token::all`, with the external collaborators as parameters:
`readResult` stands for `TagsReader::read_from_defaults()` and `parse` for
`CtagItem::parse` (crate `read_ctags`, not under `src/`), which returns the
unparsed remainder alongside the entries. As in the Rust `match`, tokens
are built only from a fully consumed parse; every other shape yields the
empty list. -/
def Token.all (readResult : Except String String)
    (parse : String → Except String (String × List CtagItem)) : List Token :=
  match readResult with
  | Except.ok contents =>
    match parse contents with
    | Except.ok (rest, outcome) =>
      if rest = "" then Token.build_tokens_from_outcome outcome else []
    | Except.error _ => []
  | Except.error _ => []

/-- C6: `Token::all` never propagates a failure — a read error, a parse
error, or a partial parse with leftover input each yield the empty token
sequence, and tokens are built exactly when the source is read and parsed
completely. -/
theorem token_all_never_fails
    (parse : String → Except String (String × List CtagItem)) :
    (∀ e : String, Token.all (Except.error e) parse = [])
    ∧ (∀ contents e, parse contents = Except.error e →
        Token.all (Except.ok contents) parse = [])
    ∧ (∀ contents rest outcome, parse contents = Except.ok (rest, outcome) →
        rest ≠ "" → Token.all (Except.ok contents) parse = [])
    ∧ (∀ contents outcome, parse contents = Except.ok ("", outcome) →
        Token.all (Except.ok contents) parse =
          Token.build_tokens_from_outcome outcome) := by
  refine ⟨fun e => rfl, ?_, ?_, ?_⟩
  · intro contents e h
    simp [Token.all, h]
  · intro contents rest outcome h hne
    simp [Token.all, h, hne]
  · intro contents outcome h
    simp [Token.all, h]

/-- Closed instantiation of `token_all_never_fails` on a failing reader, a
failing parser, and a partial parse. -/
theorem token_all_never_fails_witness :
    Token.all (Except.error "io error") (fun _ => Except.error "parse error") = []
    ∧ Token.all (Except.ok "junk") (fun _ => Except.error "parse error") = []
    ∧ Token.all (Except.ok "partial")
        (fun _ => Except.ok ("leftover", ([] : List CtagItem))) = [] := by
  have h := token_all_never_fails (fun _ => Except.error "parse error")
  have h2 := token_all_never_fails
    (fun _ => Except.ok ("leftover", ([] : List CtagItem)))
  exact ⟨h.1 "io error", h.2.1 "junk" "parse error" rfl,
    h2.2.2.1 "partial" "leftover" [] rfl (by decide)⟩

/-- Mirrors `project_configuration::ProjectConfiguration` as far as
`unused.rs` uses it: only its `name` is read. -/
structure ProjectConfiguration where
  name : String
  deriving DecidableEq, Repr

/-- Modelled from the spec: `ProjectConfiguration::default()` (crate
`project_configuration`, not under `src/`) — the empty/default profile;
its name is opaque here. -/
def ProjectConfiguration.default : ProjectConfiguration :=
  ⟨"default"⟩

/-- Mirrors `calculate_config_by_results` in `unused.rs`, with the external
collaborators as parameters: `homeDir` for `dirs::home_dir()`, `pathToStr`
for the fallible `Path::to_str` conversion applied to the joined path,
`readFile` for `read_file`/`fs::read_to_string`, and `loadAndGet` for
`ProjectConfigurations::load(..).get(..)` (crate `project_configuration`,
not under `src/`, modelled from the spec as a lookup that yields `none` on
unparsable contents or an absent profile). The `_results` argument is
unused, exactly as in the source. -/
def calculate_config_by_results (_results : List Token)
    (homeDir : Option String) (pathToStr : String → Option String)
    (readFile : String → Except String String)
    (loadAndGet : String → String → Option ProjectConfiguration) :
    Option ProjectConfiguration :=
  let config_path : Option String :=
    homeDir.bind (fun p => pathToStr (p ++ "/.unused.yml"))
  match config_path with
  | some path =>
    match readFile path with
    | Except.ok contents => loadAndGet contents "Rails"
    | Except.error _ => none
  | none => none

/-- Mirrors the use in `main`:
`calculate_config_by_results(..).unwrap_or(ProjectConfiguration::default())`. -/
def mainConfig (results : List Token)
    (homeDir : Option String) (pathToStr : String → Option String)
    (readFile : String → Except String String)
    (loadAndGet : String → String → Option ProjectConfiguration) :
    ProjectConfiguration :=
  (calculate_config_by_results results homeDir pathToStr readFile
    loadAndGet).getD ProjectConfiguration.default

/-- C7: configuration selection never fails — a missing home directory, an
unrepresentable path, an unreadable file, and unparsable contents or an
absent profile (both collapsed into `loadAndGet` returning `none`) each
yield `none`, and `main` then proceeds with the default profile. -/
theorem config_selection_never_fatal (results : List Token)
    (homeDir : Option String) (pathToStr : String → Option String)
    (readFile : String → Except String String)
    (loadAndGet : String → String → Option ProjectConfiguration) :
    (homeDir = none →
      calculate_config_by_results results homeDir pathToStr readFile loadAndGet = none)
    ∧ (∀ p, homeDir = some p → pathToStr (p ++ "/.unused.yml") = none →
        calculate_config_by_results results homeDir pathToStr readFile loadAndGet = none)
    ∧ (∀ p path e, homeDir = some p → pathToStr (p ++ "/.unused.yml") = some path →
        readFile path = Except.error e →
        calculate_config_by_results results homeDir pathToStr readFile loadAndGet = none)
    ∧ (∀ p path contents, homeDir = some p →
        pathToStr (p ++ "/.unused.yml") = some path →
        readFile path = Except.ok contents → loadAndGet contents "Rails" = none →
        calculate_config_by_results results homeDir pathToStr readFile loadAndGet = none)
    ∧ (calculate_config_by_results results homeDir pathToStr readFile loadAndGet = none →
        mainConfig results homeDir pathToStr readFile loadAndGet =
          ProjectConfiguration.default) := by
  refine ⟨?_, ?_, ?_, ?_, ?_⟩
  · intro h
    subst h
    rfl
  · intro p hp hps
    subst hp
    simp [calculate_config_by_results, hps]
  · intro p path e hp hps hr
    subst hp
    simp [calculate_config_by_results, hps, hr]
  · intro p path contents hp hps hr hl
    subst hp
    simp [calculate_config_by_results, hps, hr, hl]
  · intro h
    rw [mainConfig, h]
    rfl

/-- Closed instantiation of `config_selection_never_fatal` on an unreadable
configuration file. -/
theorem config_selection_never_fatal_witness :
    calculate_config_by_results [] (some "/home/u") (fun p => some p)
      (fun _ => Except.error "no such file") (fun _ _ => none) = none
    ∧ mainConfig [] (some "/home/u") (fun p => some p)
        (fun _ => Except.error "no such file") (fun _ _ => none) =
      ProjectConfiguration.default := by
  have h := config_selection_never_fatal [] (some "/home/u") (fun p => some p)
    (fun _ => Except.error "no such file") (fun _ _ => none)
  have h1 := h.2.2.1 "/home/u" "/home/u/.unused.yml" "no such file" rfl rfl rfl
  exact ⟨h1, h.2.2.2.2 h1⟩

end Unused
